import Mathlib

/-!
Shallow embedding of `stormtracks/match.py`: the track-association engine
(`match`), the match aggregator (`combined_match`) and the smoother
parameter search (`_optimize`), together with proofs of the behavioural
properties claimed for them.

The best-track and vorticity-track classes and the geometry utility
(`utils.utils.dist`) are not among the sources; they are modelled from the
spec (see the doc comments below) and the distance function is kept
abstract as a parameter.  Python exceptions (IndexError, KeyError,
AttributeError) are modelled with `Except`.
-/

namespace Stormtracks

/-- Dates are modelled as naturals: any linearly ordered timestamp. -/
abbrev Date := Nat

/-- A planar (longitude, latitude) position. -/
abbrev Pos := ℚ × ℚ

/-- Modelled from the spec: a reference ("best") track is "an ordered
sequence of observations, each with a timestamp, longitude, latitude".
The best-track class itself is not among the sources; the engine reads
exactly the three parallel sequences `lons`, `lats`, `dates`. -/
structure Track where
  lons : List ℚ
  lats : List ℚ
  dates : List Date
deriving DecidableEq, Repr

/-- Modelled from the spec: a candidate (vorticity) track, "identified by
a stable handle valid across the dates it appears on", exposing "for each
date it covers, the observed position at that date".  The engine reads
`dates` and the per-date position mapping `vortmax_by_date`. -/
structure Vort where
  id : Nat
  dates : List Date
  vortmax_by_date : List (Date × Pos)
deriving DecidableEq, Repr

/-- Python exceptions that the embedded code can raise. -/
inductive Err where
  | indexError
  | keyError
  | attributeError
deriving DecidableEq, Repr

/-- `CUM_DIST_CUTOFF = 100` (match.py line 9). -/
def CUM_DIST_CUTOFF : ℚ := 100

/-- `Match`: one match between a best track and a vorticity track
(match.py lines 12-21). -/
structure Match where
  best_track : Track
  vort_track : Vort
  cum_dist : ℚ
  overlap : Nat
  is_too_far_away : Bool
  overlap_start : Date
  overlap_end : Date
deriving DecidableEq, Repr

/-- `Match.__init__` (match.py lines 14-21): `cum_dist = 0`, `overlap = 1`,
`is_too_far_away = False`, `overlap_start = max(best_track.dates[0],
vort_track.dates[0])`, `overlap_end = min(best_track.dates[-1],
vort_track.dates[-1])`.  Indexing an empty date list raises IndexError. -/
def Match.init (bt : Track) (vt : Vort) : Except Err Match :=
  match bt.dates.head?, vt.dates.head?, bt.dates.getLast?, vt.dates.getLast? with
  | some b0, some v0, some bn, some vn =>
      .ok { best_track := bt, vort_track := vt, cum_dist := 0, overlap := 1,
            is_too_far_away := false,
            overlap_start := max b0 v0, overlap_end := min bn vn }
  | _, _, _, _ => .error .indexError

/-- `Match.av_dist` (match.py lines 23-25): cumulative distance divided by
overlap count. -/
def Match.av_dist (m : Match) : ℚ :=
  m.cum_dist / (m.overlap : ℚ)

/-- The engine's `matches` OrderedDict: an insertion-ordered association
list keyed by (best track, vorticity track) pairs. -/
abbrev Matches := List ((Track × Vort) × Match)

/-- Dict lookup on the ordered association list. -/
def lookupMatch : Matches → Track × Vort → Option Match
  | [], _ => none
  | kv :: ms, k => if kv.1 = k then some kv.2 else lookupMatch ms k

/-- In-place replacement of the value stored under a key (a Python dict
holds each key once; mutating the looked-up `Match` object updates the
dict's value in place). -/
def updateKey (ms : Matches) (k : Track × Vort) (m : Match) : Matches :=
  ms.map fun kv => if kv.1 = k then (kv.1, m) else kv

/-- Lookup in `vort_tracks_by_date` (a dict supplied by the caller). -/
def lookupIdx : List (Date × List Vort) → Date → Option (List Vort)
  | [], _ => none
  | kv :: idx, dte => if kv.1 = dte then some kv.2 else lookupIdx idx dte

/-- Lookup in a candidate's per-date position dict. -/
def lookupDatePos : List (Date × Pos) → Date → Option Pos
  | [], _ => none
  | kv :: ps, dte => if kv.1 = dte then some kv.2 else lookupDatePos ps dte

/-- `vortmax.vortmax_by_date[date].pos`; a missing date raises KeyError. -/
def lookupPos (vt : Vort) (dte : Date) : Option Pos :=
  lookupDatePos vt.vortmax_by_date dte

/-- Left fold that propagates the first raised exception, i.e. `foldlM`
specialised to `Except Err`. -/
def foldE {α σ : Type} (f : σ → α → Except Err σ) : σ → List α → Except Err σ
  | s, [] => .ok s
  | s, a :: as =>
    match f s a with
    | .error e => .error e
    | .ok s1 => foldE f s1 as

/-- The tail shared by both branches of the innermost loop of `match`
(match.py lines 55-57): `match.cum_dist += dist(...)`, then
`match.is_too_far_away = True` when the cumulative distance exceeds
`CUM_DIST_CUTOFF`. -/
def accumulate (δ : ℚ) (m : Match) : Match :=
  let m2 : Match := { m with cum_dist := m.cum_dist + δ }
  if CUM_DIST_CUTOFF < m2.cum_dist then { m2 with is_too_far_away := true } else m2

/-- Body of the innermost loop of `match` (match.py lines 45-57) for one
candidate `vm` active on the date of the current best-track observation
`(lon, lat, dte)`.  On a repeat visit the stored record's overlap is
incremented and `accumulate` is applied.  On a first visit a fresh
`Match` is created and inserted; the source's `if match.is_too_far_away:
continue` guard on that branch is kept, although a fresh record's flag is
always `false`.  Since the fresh key is absent from `ms`, inserting and
then mutating the record equals appending the mutated record. -/
def visitVort (d : Pos → Pos → ℚ) (bt : Track) (lon lat : ℚ) (dte : Date)
    (ms : Matches) (vm : Vort) : Except Err Matches :=
  match lookupMatch ms (bt, vm) with
  | some m0 =>
    let m1 : Match := { m0 with overlap := m0.overlap + 1 }
    match lookupPos vm dte with
    | none => .error .keyError
    | some p => .ok (updateKey ms (bt, vm) (accumulate (d p (lon, lat)) m1))
  | none =>
    match Match.init bt vm with
    | .error e => .error e
    | .ok m1 =>
      if m1.is_too_far_away then .ok (ms ++ [((bt, vm), m1)])
      else
        match lookupPos vm dte with
        | none => .error .keyError
        | some p => .ok (ms ++ [((bt, vm), accumulate (d p (lon, lat)) m1)])

/-- The candidates active on a date: `vort_tracks_by_date[date]` when the
date is a key of the temporal index, nothing otherwise (the `if date in
vort_tracks_by_date.keys()` guard, match.py line 43). -/
def dateCands (idx : List (Date × List Vort)) (dte : Date) : List Vort :=
  match lookupIdx idx dte with
  | none => []
  | some vs => vs

/-- One best-track observation (match.py lines 42-57): iterate the
candidates active on its date. -/
def visitDate (d : Pos → Pos → ℚ) (idx : List (Date × List Vort)) (bt : Track)
    (lon lat : ℚ) (dte : Date) (ms : Matches) : Except Err Matches :=
  foldE (visitVort d bt lon lat dte) ms (dateCands idx dte)

/-- `zip(best_track.lons, best_track.lats, best_track.dates)`: Python's
`zip` truncates to the shortest sequence, as does `List.zip`. -/
def trackObs (bt : Track) : List (ℚ × ℚ × Date) :=
  bt.lons.zip (bt.lats.zip bt.dates)

/-- One best track (match.py lines 41-57): walk its observations in
order. -/
def visitTrack (d : Pos → Pos → ℚ) (idx : List (Date × List Vort))
    (ms : Matches) (bt : Track) : Except Err Matches :=
  foldE (fun ms o => visitDate d idx bt o.1 o.2.1 o.2.2 ms) ms (trackObs bt)

/-- The association engine `match` (match.py lines 28-59).  (`match` is a
reserved word in Lean, hence the name.)  `d` is the geometry utility
`dist`, modelled from the spec as an abstract planar distance function. -/
def matchTracks (d : Pos → Pos → ℚ) (idx : List (Date × List Vort))
    (best_tracks : List Track) : Except Err Matches :=
  foldE (visitTrack d idx) [] best_tracks

/-- One joint visit of the engine: a best track's observation
`(lon, lat, date)` together with one candidate active on that date. -/
structure Event where
  bt : Track
  lon : ℚ
  lat : ℚ
  date : Date
  vm : Vort
deriving DecidableEq, Repr

/-- The (reference, candidate) pair an event touches. -/
def Event.key (e : Event) : Track × Vort := (e.bt, e.vm)

/-- The engine's action at one joint visit. -/
def visitEvent (d : Pos → Pos → ℚ) (ms : Matches) (e : Event) : Except Err Matches :=
  visitVort d e.bt e.lon e.lat e.date ms e.vm

/-- The joint visits generated by one best track, in engine order. -/
def trackEvents (idx : List (Date × List Vort)) (bt : Track) : List Event :=
  (trackObs bt).flatMap fun o =>
    (dateCands idx o.2.2).map fun vm =>
      { bt := bt, lon := o.1, lat := o.2.1, date := o.2.2, vm := vm }

/-- All joint visits of an engine run, in engine order. -/
def allEvents (idx : List (Date × List Vort)) (bts : List Track) : List Event :=
  bts.flatMap (trackEvents idx)

/-- The accumulation events of a run for one (reference, candidate) pair:
the joint visits of that pair, in engine order. -/
def pairVisits (idx : List (Date × List Vort)) (bts : List Track)
    (bt : Track) (vm : Vort) : List Event :=
  (allEvents idx bts).filter fun e => e.key = (bt, vm)

/-- The number of accumulation events for a pair: a creation visit counts
one, each repeat visit adds one. -/
def jointVisits (idx : List (Date × List Vort)) (bts : List Track)
    (bt : Track) (vm : Vort) : Nat :=
  (pairVisits idx bts bt vm).length

/-- The planar distance contributed by one joint visit (defined whenever
the candidate's position dict has the date, which holds on every visit of
a run that raised no exception). -/
def eventDelta (d : Pos → Pos → ℚ) (e : Event) : ℚ :=
  d ((lookupPos e.vm e.date).getD (0, 0)) (e.lon, e.lat)

/-- The distance contributions of a pair across a run, in visit order. -/
def visitDeltas (d : Pos → Pos → ℚ) (idx : List (Date × List Vort))
    (bts : List Track) (bt : Track) (vm : Vort) : List ℚ :=
  (pairVisits idx bts bt vm).map (eventDelta d)

/-- The engine's effect at one joint visit on the record of the visited
pair alone: `none` stands for "no record yet". -/
def keyStep (d : Pos → Pos → ℚ) (om : Option Match) (e : Event) :
    Except Err (Option Match) :=
  match om with
  | some m0 =>
    let m1 : Match := { m0 with overlap := m0.overlap + 1 }
    match lookupPos e.vm e.date with
    | none => .error .keyError
    | some p => .ok (some (accumulate (d p (e.lon, e.lat)) m1))
  | none =>
    match Match.init e.bt e.vm with
    | .error er => .error er
    | .ok m1 =>
      if m1.is_too_far_away then .ok (some m1)
      else
        match lookupPos e.vm e.date with
        | none => .error .keyError
        | some p => .ok (some (accumulate (d p (e.lon, e.lat)) m1))

/-- Whether some prefix of the visit-wise distance contributions sums to
more than the cutoff. -/
def anyPrefixOver (δs : List ℚ) : Bool :=
  (List.range δs.length).any fun i => decide (CUM_DIST_CUTOFF < ((δs.take (i + 1)).sum))

/-! ### The match aggregator `combined_match` (match.py lines 62-79) -/

/-- The aggregator's result dict: reference track → list of its matches. -/
abbrev Combined := List (Track × List Match)

/-- `combined_matches[best_track] = []` inside the first loop of
`combined_match`: dict insertion replaces the value of a present key and
appends a fresh key at the end. -/
def dictInsertTrack (cm : Combined) (bt : Track) (v : List Match) : Combined :=
  if cm.any (fun p => p.1 = bt) then
    cm.map fun p => if p.1 = bt then (p.1, v) else p
  else
    cm ++ [(bt, v)]

/-- `combined_matches[match.best_track].append(match)`: appending under an
absent key raises KeyError. -/
def appendUnder (cm : Combined) (bt : Track) (m : Match) : Except Err Combined :=
  if cm.any (fun p => p.1 = bt) then
    .ok (cm.map fun p => if p.1 = bt then (p.1, p.2 ++ [m]) else p)
  else
    .error .keyError

/-- `combined_match` (match.py lines 62-79), with each element of
`all_matches` iterating over `Match` records: initialise every supplied
best track to an empty list, then append each match under its
`best_track`. -/
def combined_match (best_tracks : List Track) (all_matches : List (List Match)) :
    Except Err Combined :=
  let cm0 := best_tracks.foldl (fun cm bt => dictInsertTrack cm bt []) []
  foldE (fun cm ms => foldE (fun cm m => appendUnder cm m.best_track m) cm ms) cm0 all_matches

/-- Iterating a Python dict — in particular the engine's output
OrderedDict — yields its keys. -/
def dictIter (ms : Matches) : List (Track × Vort) := ms.map Prod.fst

/-- Attribute access `match.best_track` when `match` is a (best track,
vorticity track) key tuple: a tuple has no `best_track` attribute, so
AttributeError is raised. -/
def pairBestTrackAttr (_k : Track × Vort) : Except Err (Track ⊕ (Track × Vort)) :=
  .error .attributeError

/-- `combined_match` applied to association-engine outputs themselves (the
OrderedDicts): `for match in matches` then iterates dict keys, and
`match.best_track` is attribute access on a key tuple.  The appended
values would be the key tuples, so the value lists are heterogeneous
(`Match ⊕` key); the attribute access raises before any append. -/
def combined_match_on_outputs (best_tracks : List Track) (all_matches : List Matches) :
    Except Err (List (Track × List (Match ⊕ (Track × Vort)))) :=
  let cm0 : List (Track × List (Match ⊕ (Track × Vort))) :=
    best_tracks.foldl (fun cm bt =>
      if cm.any (fun p => p.1 = bt) then cm.map (fun p => if p.1 = bt then (p.1, []) else p)
      else cm ++ [(bt, [])]) []
  foldE (fun cm ms =>
    foldE (fun cm k =>
      match pairBestTrackAttr k with
      | .error e => .error e
      | .ok (.inl bt) =>
        if cm.any (fun p => p.1 = bt) then
          .ok (cm.map fun p => if p.1 = bt then (p.1, p.2 ++ [Sum.inr k]) else p)
        else .error .keyError
      | .ok (.inr _) => .error .attributeError) cm (dictIter ms)) cm0 all_matches

/-! ### The smoother parameter search `_optimize` (match.py lines 123-198)

The Linear State Smoother (`utils.kalman.RTSSmoother`) and the geometry
utility used by `_cum_dist` are not among the sources.  Modelled from the
spec: a grid point carries its process-noise and measurement-noise scale
factors together with the smoothed and filtered cumulative squared
distances and the recomputed overlap that the smoother run at that grid
point induces; the search logic over these values is embedded exactly. -/

/-- Which of the two per-grid-point estimates won. -/
inductive Mode where
  | smoothed
  | filtered
deriving DecidableEq, Repr

/-- One evaluated grid point of the parameter search. -/
structure GridEval where
  q_param : ℚ
  r_param : ℚ
  smoothed_new_d : ℚ
  filtered_new_d : ℚ
  overlap : Nat
deriving DecidableEq, Repr

/-- The mutable state of the search loop: the running minimum `min_d` and
the recorded `optimum_param`. -/
structure OptState where
  min_d : ℚ
  optimum_param : Option (ℚ × ℚ × Mode)
deriving DecidableEq, Repr

/-- The smoothed-estimate check at one grid point (match.py lines
178-182): adopt the triple and lower the minimum when the recomputed
overlap is at least 6 and the smoothed distance strictly improves on the
running minimum. -/
def checkSmoothed (g : GridEval) (s : OptState) : OptState :=
  if 6 ≤ g.overlap ∧ g.smoothed_new_d < s.min_d then
    { min_d := g.smoothed_new_d, optimum_param := some (g.q_param, g.r_param, Mode.smoothed) }
  else s

/-- The filtered-estimate check at one grid point (match.py lines
188-191). -/
def checkFiltered (g : GridEval) (s : OptState) : OptState :=
  if 6 ≤ g.overlap ∧ g.filtered_new_d < s.min_d then
    { min_d := g.filtered_new_d, optimum_param := some (g.q_param, g.r_param, Mode.filtered) }
  else s

/-- One body of the nested grid loop (match.py lines 163-196): the
smoothed check followed, against the possibly already lowered minimum, by
the filtered check. -/
def optStep (s : OptState) (g : GridEval) : OptState :=
  let s1 : OptState :=
    if 6 ≤ g.overlap ∧ g.smoothed_new_d < s.min_d then
      { min_d := g.smoothed_new_d, optimum_param := some (g.q_param, g.r_param, Mode.smoothed) }
    else s
  if 6 ≤ g.overlap ∧ g.filtered_new_d < s1.min_d then
    { min_d := g.filtered_new_d, optimum_param := some (g.q_param, g.r_param, Mode.filtered) }
  else s1

/-- The grid loop of `_optimize` (match.py lines 148-196): start from
`min_d = baseline_dist`, `optimum_param = None` and fold the per-point
update over the grid in order. -/
def runOptimize (baseline_dist : ℚ) (grid : List GridEval) : OptState :=
  grid.foldl optStep { min_d := baseline_dist, optimum_param := none }

/-- The ratio `min_d / baseline_dist` that `_optimize` prints as its last
statement (match.py line 198). -/
def optimizeRatio (baseline_dist : ℚ) (grid : List GridEval) : ℚ :=
  (runOptimize baseline_dist grid).min_d / baseline_dist

/-- The value `_optimize` returns: its body (match.py lines 123-198) ends
without a `return` statement, so the call evaluates to Python's `None`
whatever the inputs — in particular it never carries the optimum triple or
the distance ratio. -/
def optimizeReturn (_baseline_dist : ℚ) (_grid : List GridEval) :
    Option ((ℚ × ℚ × Mode) × ℚ) :=
  none

/-- The keys of the engine's ordered match dict. -/
def keysOf (ms : Matches) : List (Track × Vort) := ms.map Prod.fst

/-! ### Concrete fixtures used to instantiate the theorems -/

instance instDecEqExcept {ε α : Type} [DecidableEq ε] [DecidableEq α] :
    DecidableEq (Except ε α) := fun a b =>
  match a, b with
  | .ok x, .ok y =>
    if h : x = y then .isTrue (by rw [h]) else .isFalse (by simp [h])
  | .error e, .error f =>
    if h : e = f then .isTrue (by rw [h]) else .isFalse (by simp [h])
  | .ok _, .error _ => .isFalse (fun hc => Except.noConfusion hc)
  | .error _, .ok _ => .isFalse (fun hc => Except.noConfusion hc)

/-- A concrete instance of the abstract planar distance: the taxicab
distance, under which the positions used below are 200 apart. -/
def distTaxi : Pos → Pos → ℚ := fun p q => |p.1 - q.1| + |p.2 - q.2|

/-- A one-observation reference track at the origin on date 0. -/
def btW : Track := { lons := [0], lats := [0], dates := [0] }

/-- A candidate active only on date 0, at position (200, 0). -/
def vmW : Vort := { id := 0, dates := [0], vortmax_by_date := [(0, (200, 0))] }

/-- Temporal index for the scenario: on date 0 only `vmW` is active. -/
def idxW : List (Date × List Vort) := [(0, [vmW])]

/-- The record `Match.init btW vmW` creates, before any accumulation. -/
def mInit : Match :=
  { best_track := btW, vort_track := vmW, cum_dist := 0, overlap := 1,
    is_too_far_away := false, overlap_start := 0, overlap_end := 0 }

/-- The match record the engine produces for `btW` and `vmW`. -/
def mW : Match :=
  { best_track := btW, vort_track := vmW, cum_dist := 200, overlap := 1,
    is_too_far_away := true, overlap_start := 0, overlap_end := 0 }

/-- The engine's output dict for the scenario. -/
def msW : Matches := [((btW, vmW), mW)]

/-- A reference track with zero observations. -/
def btEmpty : Track := { lons := [], lats := [], dates := [] }

/-- A candidate with zero observations. -/
def vmEmpty : Vort := { id := 1, dates := [], vortmax_by_date := [] }

/-- A concrete evaluated grid point that improves on a baseline of 10
with its smoothed estimate. -/
def gW : GridEval :=
  { q_param := 1 / 1000, r_param := 1 / 10, smoothed_new_d := 1,
    filtered_new_d := 2, overlap := 10 }

/-- A concrete evaluated grid point whose recomputed overlap is below the
minimum-overlap gate of 6. -/
def gLow : GridEval :=
  { q_param := 1 / 1000, r_param := 1 / 10, smoothed_new_d := 1,
    filtered_new_d := 2, overlap := 5 }

/-! ### Basic lemmas about the fold and the dict operations -/

theorem foldE_append {α σ : Type} (f : σ → α → Except Err σ) (xs ys : List α) (s : σ) :
    foldE f s (xs ++ ys) = (foldE f s xs).bind (fun s1 => foldE f s1 ys) := by
  induction xs generalizing s with
  | nil => simp [foldE, Except.bind]
  | cons x xs ih =>
    simp only [List.cons_append, foldE]
    cases f s x with
    | error e => simp [Except.bind]
    | ok s1 => simpa [Except.bind] using ih s1

theorem foldE_map {α β σ : Type} (f : σ → β → Except Err σ) (g : α → β)
    (xs : List α) (s : σ) :
    foldE f s (xs.map g) = foldE (fun s a => f s (g a)) s xs := by
  induction xs generalizing s with
  | nil => rfl
  | cons x xs ih =>
    simp only [List.map_cons, foldE]
    cases f s (g x) with
    | error e => rfl
    | ok s1 => exact ih s1

theorem lookupMatch_append_fresh (ms : Matches) (k : Track × Vort) (m : Match)
    (h : lookupMatch ms k = none) :
    lookupMatch (ms ++ [(k, m)]) k = some m := by
  induction ms with
  | nil => simp [lookupMatch]
  | cons kv ms ih =>
    by_cases hk : kv.1 = k
    · simp [lookupMatch, hk] at h
    · simp only [lookupMatch, hk, if_false, List.cons_append] at h ⊢
      exact ih h

theorem lookupMatch_append_ne (ms : Matches) (k k' : Track × Vort) (m : Match)
    (h : k' ≠ k) :
    lookupMatch (ms ++ [(k, m)]) k' = lookupMatch ms k' := by
  induction ms with
  | nil => simp [lookupMatch, Ne.symm h]
  | cons kv ms ih =>
    by_cases hk : kv.1 = k'
    · simp [lookupMatch, hk]
    · simp only [List.cons_append, lookupMatch, hk, if_false]
      exact ih

theorem lookupMatch_updateKey_self (ms : Matches) (k : Track × Vort) (m0 m : Match)
    (h : lookupMatch ms k = some m0) :
    lookupMatch (updateKey ms k m) k = some m := by
  induction ms with
  | nil => simp [lookupMatch] at h
  | cons kv ms ih =>
    by_cases hk : kv.1 = k
    · simp [lookupMatch, updateKey, hk]
    · simp only [lookupMatch, hk, if_false] at h
      simp only [updateKey, List.map_cons, hk, if_false]
      simpa only [lookupMatch, hk, if_false, updateKey] using ih h

theorem lookupMatch_updateKey_ne (ms : Matches) (k k' : Track × Vort) (m : Match)
    (h : k' ≠ k) :
    lookupMatch (updateKey ms k m) k' = lookupMatch ms k' := by
  induction ms with
  | nil => rfl
  | cons kv ms ih =>
    by_cases hk : kv.1 = k
    · have hk' : ¬ (k = k') := fun hh => h hh.symm
      simp only [updateKey, List.map_cons, hk, if_true, lookupMatch]
      simp only [lookupMatch, hk, hk', if_false, updateKey] at ih ⊢
      exact ih
    · simp only [updateKey, List.map_cons, hk, if_false, lookupMatch] at ih ⊢
      by_cases hk2 : kv.1 = k'
      · simp [hk2]
      · simp only [hk2, if_false, updateKey] at ih ⊢
        exact ih

theorem lookupMatch_none_iff (ms : Matches) (k : Track × Vort) :
    lookupMatch ms k = none ↔ k ∉ keysOf ms := by
  induction ms with
  | nil => simp [lookupMatch, keysOf]
  | cons kv ms ih =>
    by_cases hk : kv.1 = k
    · simp [lookupMatch, keysOf, hk]
    · simp [lookupMatch, keysOf, hk, ih, Ne.symm hk]

theorem keysOf_updateKey (ms : Matches) (k : Track × Vort) (m : Match) :
    keysOf (updateKey ms k m) = keysOf ms := by
  induction ms with
  | nil => rfl
  | cons kv ms ih =>
    by_cases hk : kv.1 = k
    · simp only [updateKey, List.map_cons, hk, if_true, keysOf] at ih ⊢
      simp [hk, ih]
    · simp only [updateKey, List.map_cons, hk, if_false, keysOf] at ih ⊢
      simp [ih]

theorem lookupMatch_mem_of_nodup (ms : Matches) (kv : (Track × Vort) × Match)
    (hnd : (keysOf ms).Nodup) (hmem : kv ∈ ms) :
    lookupMatch ms kv.1 = some kv.2 := by
  induction ms with
  | nil => simp at hmem
  | cons kv0 ms ih =>
    simp only [keysOf, List.map_cons, List.nodup_cons] at hnd
    rcases List.mem_cons.mp hmem with h | h
    · simp [lookupMatch, h]
    · by_cases hk : kv0.1 = kv.1
      · exfalso
        exact hnd.1 (hk ▸ (List.mem_map.mpr ⟨kv, h, rfl⟩))
      · simp only [lookupMatch, hk, if_false]
        exact ih hnd.2 h

theorem filter_eq_singleton_of_nodup (ms : Matches) (k : Track × Vort) (m : Match)
    (hnd : (keysOf ms).Nodup) (h : lookupMatch ms k = some m) :
    (ms.filter fun kv => kv.1 = k) = [(k, m)] := by
  induction ms with
  | nil => simp [lookupMatch] at h
  | cons kv ms ih =>
    simp only [keysOf, List.map_cons, List.nodup_cons] at hnd
    by_cases hk : kv.1 = k
    · simp only [lookupMatch, hk, if_true, Option.some.injEq] at h
      have hnone : lookupMatch ms k = none := by
        rw [lookupMatch_none_iff]
        exact fun hmem => hnd.1 (hk ▸ hmem)
      have hfil : (ms.filter fun kv => kv.1 = k) = [] := by
        rw [List.filter_eq_nil_iff]
        intro kv2 hkv2 hdec
        have : kv2.1 = k := by simpa using hdec
        exact (lookupMatch_none_iff ms k).mp hnone (this ▸ List.mem_map.mpr ⟨kv2, hkv2, rfl⟩)
      have hkv : kv = (k, m) := by
        rw [Prod.ext_iff]; exact ⟨hk, h⟩
      simp [List.filter_cons, hkv, hfil]
    · simp only [lookupMatch, hk, if_false] at h
      simpa [List.filter_cons, hk] using ih hnd.2 h

/-! ### The effect of one joint visit, per key -/

theorem Match.init_ok (bt : Track) (vt : Vort) (m : Match)
    (h : Match.init bt vt = .ok m) :
    ∃ b0 v0 bn vn, bt.dates.head? = some b0 ∧ vt.dates.head? = some v0 ∧
      bt.dates.getLast? = some bn ∧ vt.dates.getLast? = some vn ∧
      m = { best_track := bt, vort_track := vt, cum_dist := 0, overlap := 1,
            is_too_far_away := false,
            overlap_start := max b0 v0, overlap_end := min bn vn } := by
  cases hb0 : bt.dates.head? <;> cases hv0 : vt.dates.head? <;>
    cases hbn : bt.dates.getLast? <;> cases hvn : vt.dates.getLast? <;>
    simp [Match.init, hb0, hv0, hbn, hvn] at h
  rename_i b0 v0 bn vn
  exact ⟨b0, v0, bn, vn, rfl, rfl, rfl, rfl, h.symm⟩

theorem Match.init_flag (bt : Track) (vt : Vort) (m : Match)
    (h : Match.init bt vt = .ok m) : m.is_too_far_away = false := by
  obtain ⟨b0, v0, bn, vn, _, _, _, _, hm⟩ := Match.init_ok bt vt m h
  rw [hm]

theorem visitEvent_key_effect (d : Pos → Pos → ℚ) (ms ms' : Matches) (e : Event)
    (h : visitEvent d ms e = .ok ms') :
    keyStep d (lookupMatch ms e.key) e = .ok (lookupMatch ms' e.key) ∧
    ∀ k, k ≠ e.key → lookupMatch ms' k = lookupMatch ms k := by
  have hkey : e.key = (e.bt, e.vm) := rfl
  cases hm : lookupMatch ms (e.bt, e.vm) with
  | some m0 =>
    cases hp : lookupPos e.vm e.date with
    | none =>
      exfalso
      simp only [visitEvent, visitVort, hm, hp] at h
      exact Except.noConfusion h
    | some p =>
      simp only [visitEvent, visitVort, hm, hp, Except.ok.injEq] at h
      subst h
      rw [hkey, hm]
      constructor
      · simp only [keyStep, hp, Except.ok.injEq]
        rw [lookupMatch_updateKey_self ms (e.bt, e.vm) m0 _ hm]
      · intro k hk
        exact lookupMatch_updateKey_ne ms (e.bt, e.vm) k _ hk
  | none =>
    cases hi : Match.init e.bt e.vm with
    | error er =>
      exfalso
      simp only [visitEvent, visitVort, hm, hi] at h
      exact Except.noConfusion h
    | ok m1 =>
      have hflag : m1.is_too_far_away = false := Match.init_flag _ _ _ hi
      cases hp : lookupPos e.vm e.date with
      | none =>
        exfalso
        simp [visitEvent, visitVort, hm, hi, hflag, hp] at h
      | some p =>
        simp only [visitEvent, visitVort, hm, hi, hflag, Bool.false_eq_true,
          if_false, hp, Except.ok.injEq] at h
        subst h
        rw [hkey, hm]
        constructor
        · simp only [keyStep, hi, hflag, Bool.false_eq_true, if_false, hp,
            Except.ok.injEq]
          rw [lookupMatch_append_fresh ms (e.bt, e.vm) _ hm]
        · intro k hk
          exact lookupMatch_append_ne ms (e.bt, e.vm) k _ hk

theorem visitEvent_keys_nodup (d : Pos → Pos → ℚ) (ms ms' : Matches) (e : Event)
    (hnd : (keysOf ms).Nodup) (h : visitEvent d ms e = .ok ms') :
    (keysOf ms').Nodup := by
  cases hm : lookupMatch ms (e.bt, e.vm) with
  | some m0 =>
    cases hp : lookupPos e.vm e.date with
    | none =>
      exfalso
      simp only [visitEvent, visitVort, hm, hp] at h
      exact Except.noConfusion h
    | some p =>
      simp only [visitEvent, visitVort, hm, hp, Except.ok.injEq] at h
      subst h
      rw [keysOf_updateKey]
      exact hnd
  | none =>
    have hnotmem : (e.bt, e.vm) ∉ keysOf ms := (lookupMatch_none_iff ms _).mp hm
    have happ : ∀ m : Match, (keysOf (ms ++ [((e.bt, e.vm), m)])).Nodup := by
      intro m
      have heq : keysOf (ms ++ [((e.bt, e.vm), m)]) = keysOf ms ++ [(e.bt, e.vm)] := by
        simp [keysOf]
      rw [heq, List.nodup_append]
      exact ⟨hnd, List.nodup_singleton _, by
        intro a ha hb
        rw [List.mem_singleton] at hb
        exact hnotmem (hb ▸ ha)⟩
    cases hi : Match.init e.bt e.vm with
    | error er =>
      exfalso
      simp only [visitEvent, visitVort, hm, hi] at h
      exact Except.noConfusion h
    | ok m1 =>
      have hflag : m1.is_too_far_away = false := Match.init_flag _ _ _ hi
      cases hp : lookupPos e.vm e.date with
      | none =>
        exfalso
        simp [visitEvent, visitVort, hm, hi, hflag, hp] at h
      | some p =>
        simp only [visitEvent, visitVort, hm, hi, hflag, Bool.false_eq_true,
          if_false, hp, Except.ok.injEq] at h
        subst h
        exact happ _

/-! ### Decomposing a run into its per-key visit sequences -/

theorem foldE_visitEvent_filter (d : Pos → Pos → ℚ) (es : List Event) :
    ∀ ms ms', foldE (visitEvent d) ms es = .ok ms' →
    ∀ k, foldE (keyStep d) (lookupMatch ms k) (es.filter fun e => e.key = k) =
      .ok (lookupMatch ms' k) := by
  induction es with
  | nil =>
    intro ms ms' h k
    simp only [foldE, Except.ok.injEq] at h
    subst h
    simp [foldE]
  | cons e es ih =>
    intro ms ms' h k
    simp only [foldE] at h
    cases hstep : visitEvent d ms e with
    | error er =>
      rw [hstep] at h
      exact absurd h (by simp)
    | ok ms1 =>
      rw [hstep] at h
      obtain ⟨hkeyeq, hframe⟩ := visitEvent_key_effect d ms ms1 e hstep
      by_cases hk : e.key = k
      · subst hk
        rw [List.filter_cons_of_pos (by simp)]
        simp only [foldE, hkeyeq]
        exact ih ms1 ms' h e.key
      · rw [List.filter_cons_of_neg (by simp [hk])]
        rw [← hframe k (fun hh => hk hh.symm)]
        exact ih ms1 ms' h k

theorem foldE_visitEvent_keys_nodup (d : Pos → Pos → ℚ) (es : List Event) :
    ∀ ms ms', foldE (visitEvent d) ms es = .ok ms' →
    (keysOf ms).Nodup → (keysOf ms').Nodup := by
  induction es with
  | nil =>
    intro ms ms' h hnd
    simp only [foldE, Except.ok.injEq] at h
    subst h
    exact hnd
  | cons e es ih =>
    intro ms ms' h hnd
    simp only [foldE] at h
    cases hstep : visitEvent d ms e with
    | error er =>
      rw [hstep] at h
      exact absurd h (by simp)
    | ok ms1 =>
      rw [hstep] at h
      exact ih ms1 ms' h (visitEvent_keys_nodup d ms ms1 e hnd hstep)

/-! ### The engine run as a fold over its joint-visit events -/

theorem visitDate_eq_events (d : Pos → Pos → ℚ) (idx : List (Date × List Vort))
    (bt : Track) (lon lat : ℚ) (dte : Date) (ms : Matches) :
    visitDate d idx bt lon lat dte ms =
      foldE (visitEvent d) ms ((dateCands idx dte).map fun vm =>
        { bt := bt, lon := lon, lat := lat, date := dte, vm := vm }) := by
  rw [foldE_map]
  rfl

theorem visitTrack_eq_events (d : Pos → Pos → ℚ) (idx : List (Date × List Vort))
    (ms : Matches) (bt : Track) :
    visitTrack d idx ms bt = foldE (visitEvent d) ms (trackEvents idx bt) := by
  unfold visitTrack trackEvents
  generalize trackObs bt = os
  induction os generalizing ms with
  | nil => rfl
  | cons o os ih =>
    rw [List.flatMap_cons, foldE_append]
    simp only [foldE]
    rw [← visitDate_eq_events]
    cases hd : visitDate d idx bt o.1 o.2.1 o.2.2 ms with
    | error er => simp [Except.bind]
    | ok ms1 => simpa [Except.bind] using ih ms1

theorem matchTracks_eq_events (d : Pos → Pos → ℚ) (idx : List (Date × List Vort))
    (bts : List Track) :
    matchTracks d idx bts = foldE (visitEvent d) [] (allEvents idx bts) := by
  unfold matchTracks allEvents
  generalize ([] : Matches) = ms
  induction bts generalizing ms with
  | nil => rfl
  | cons bt bts ih =>
    rw [List.flatMap_cons, foldE_append]
    simp only [foldE]
    rw [← visitTrack_eq_events]
    cases ht : visitTrack d idx ms bt with
    | error er => simp [Except.bind]
    | ok ms1 => simpa [Except.bind] using ih ms1

/-- Per-pair summary of a successful engine run: the record stored for a
pair is the replay of exactly that pair's joint visits. -/
theorem matchTracks_key (d : Pos → Pos → ℚ) (idx : List (Date × List Vort))
    (bts : List Track) (ms : Matches) (h : matchTracks d idx bts = .ok ms)
    (bt : Track) (vm : Vort) :
    foldE (keyStep d) none (pairVisits idx bts bt vm) = .ok (lookupMatch ms (bt, vm)) := by
  rw [matchTracks_eq_events] at h
  have hh := foldE_visitEvent_filter d (allEvents idx bts) [] ms h (bt, vm)
  simpa [pairVisits, lookupMatch] using hh

theorem matchTracks_keys_nodup (d : Pos → Pos → ℚ) (idx : List (Date × List Vort))
    (bts : List Track) (ms : Matches) (h : matchTracks d idx bts = .ok ms) :
    (keysOf ms).Nodup := by
  rw [matchTracks_eq_events] at h
  exact foldE_visitEvent_keys_nodup d (allEvents idx bts) [] ms h (by simp [keysOf])

/-! ### Replaying one pair's visits: full characterisation of its record -/

theorem accumulate_fields (δ : ℚ) (m : Match) :
    (accumulate δ m).best_track = m.best_track ∧
    (accumulate δ m).vort_track = m.vort_track ∧
    (accumulate δ m).overlap = m.overlap ∧
    (accumulate δ m).cum_dist = m.cum_dist + δ ∧
    (accumulate δ m).overlap_start = m.overlap_start ∧
    (accumulate δ m).overlap_end = m.overlap_end ∧
    (accumulate δ m).is_too_far_away =
      (m.is_too_far_away || decide (CUM_DIST_CUTOFF < m.cum_dist + δ)) := by
  unfold accumulate
  by_cases hc : CUM_DIST_CUTOFF < m.cum_dist + δ <;> simp [hc]

theorem anyPrefixOver_nil : anyPrefixOver [] = false := rfl

theorem anyPrefixOver_snoc (δs : List ℚ) (δ : ℚ) :
    anyPrefixOver (δs ++ [δ]) =
      (anyPrefixOver δs || decide (CUM_DIST_CUTOFF < δs.sum + δ)) := by
  have hfull : ((δs ++ [δ]).take (δs.length + 1)).sum = δs.sum + δ := by
    rw [List.take_of_length_le (by simp), List.sum_append, List.sum_singleton]
  rw [Bool.eq_iff_iff]
  simp only [anyPrefixOver, List.any_eq_true, List.mem_range, decide_eq_true_eq,
    Bool.or_eq_true, List.length_append, List.length_singleton]
  constructor
  · rintro ⟨i, hi, hgt⟩
    by_cases hin : i < δs.length
    · exact Or.inl ⟨i, hin, by rwa [List.take_append_of_le_length (by omega)] at hgt⟩
    · have hii : i = δs.length := by omega
      subst hii
      exact Or.inr (by rwa [hfull] at hgt)
  · rintro (⟨i, hi, hgt⟩ | hgt)
    · exact ⟨i, by omega, by rwa [List.take_append_of_le_length (by omega)]⟩
    · exact ⟨δs.length, by omega, by rwa [hfull]⟩

/-- Replaying the joint visits of one pair from no record: the resulting
record exists iff there was at least one visit, and then its fields are
determined: reference and candidate are the pair, overlap counts the
visits, cumulative distance sums the visit distances, the too-far flag
records whether some running prefix exceeded the cutoff, and the overlap
window comes from the two tracks' first and last dates. -/
theorem keyFold_char (d : Pos → Pos → ℚ) (bt : Track) (vm : Vort) :
    ∀ vs : List Event, (∀ e ∈ vs, e.bt = bt ∧ e.vm = vm) →
    ∀ om, foldE (keyStep d) none vs = .ok om →
    (om = none ↔ vs = []) ∧
    (∀ m, om = some m →
      m.best_track = bt ∧ m.vort_track = vm ∧
      m.overlap = vs.length ∧
      m.cum_dist = (vs.map (eventDelta d)).sum ∧
      m.is_too_far_away = anyPrefixOver (vs.map (eventDelta d)) ∧
      ∃ b0 v0 bn vn, bt.dates.head? = some b0 ∧ vm.dates.head? = some v0 ∧
        bt.dates.getLast? = some bn ∧ vm.dates.getLast? = some vn ∧
        m.overlap_start = max b0 v0 ∧ m.overlap_end = min bn vn) := by
  intro vs
  induction vs using List.reverseRecOn with
  | nil =>
    intro _ om h
    simp only [foldE, Except.ok.injEq] at h
    subst h
    exact ⟨by simp, fun m hm => by simp at hm⟩
  | append_singleton xs e ih =>
    intro hall om h
    rw [foldE_append] at h
    cases h1 : foldE (keyStep d) none xs with
    | error er =>
      rw [h1] at h
      exact absurd h (by simp [Except.bind])
    | ok om1 =>
      rw [h1] at h
      simp only [Except.bind] at h
      cases h2 : keyStep d om1 e with
      | error er =>
        simp only [foldE, h2] at h
        exact Except.noConfusion h
      | ok om2 =>
        simp only [foldE, h2, Except.ok.injEq] at h
        subst h
        obtain ⟨hiff, hprops⟩ := ih (fun e' he' => hall e' (List.mem_append_left _ he')) om1 h1
        have he : e.bt = bt ∧ e.vm = vm := hall e (by simp)
        cases om1 with
        | none =>
          have hxs : xs = [] := hiff.mp rfl
          subst hxs
          cases hi : Match.init e.bt e.vm with
          | error er =>
            exfalso
            simp only [keyStep, hi] at h2
            exact Except.noConfusion h2
          | ok m1 =>
            have hflag : m1.is_too_far_away = false := Match.init_flag _ _ _ hi
            cases hp : lookupPos e.vm e.date with
            | none =>
              exfalso
              simp [keyStep, hi, hflag, hp] at h2
            | some p =>
              simp only [keyStep, hi, hflag, Bool.false_eq_true, if_false, hp,
                Except.ok.injEq] at h2
              subst h2
              obtain ⟨b0, v0, bn, vn, hb0, hv0, hbn, hvn, hm1⟩ := Match.init_ok _ _ _ hi
              subst hm1
              refine ⟨by simp, fun m hm => ?_⟩
              simp only [Option.some.injEq] at hm
              subst hm
              obtain ⟨f1, f2, f3, f4, f5, f6, f7⟩ :=
                accumulate_fields (d p (e.lon, e.lat)) _
              have hδ : eventDelta d e = d p (e.lon, e.lat) := by
                simp [eventDelta, hp]
              refine ⟨by rw [f1, he.1], by rw [f2, he.2], by simp [f3], ?_, ?_, ?_⟩
              · simp [f4, hδ]
              · rw [f7]
                simp only [List.nil_append, List.map_cons, List.map_nil]
                have hs := anyPrefixOver_snoc [] (eventDelta d e)
                simp only [List.nil_append, anyPrefixOver_nil, List.sum_nil,
                  Bool.false_or, zero_add] at hs
                rw [hs, hδ]
                simp
              · exact ⟨b0, v0, bn, vn, he.1 ▸ hb0, he.2 ▸ hv0, he.1 ▸ hbn, he.2 ▸ hvn,
                  by simp [f5], by simp [f6]⟩
        | some m0 =>
          have hxs : xs ≠ [] := by
            intro hxs
            exact absurd (hiff.mpr hxs) (by simp)
          obtain ⟨g1, g2, g3, g4, g5, g6⟩ := hprops m0 rfl
          cases hp : lookupPos e.vm e.date with
          | none =>
            exfalso
            simp only [keyStep, hp] at h2
            exact Except.noConfusion h2
          | some p =>
            simp only [keyStep, hp, Except.ok.injEq] at h2
            subst h2
            refine ⟨by simp, fun m hm => ?_⟩
            simp only [Option.some.injEq] at hm
            subst hm
            obtain ⟨f1, f2, f3, f4, f5, f6, f7⟩ :=
              accumulate_fields (d p (e.lon, e.lat)) { m0 with overlap := m0.overlap + 1 }
            have hδ : eventDelta d e = d p (e.lon, e.lat) := by
              simp [eventDelta, hp]
            refine ⟨by rw [f1]; exact g1, by rw [f2]; exact g2, ?_, ?_, ?_, ?_⟩
            · rw [f3]
              simp [g3]
            · rw [f4]
              simp only [List.map_append, List.map_cons, List.map_nil, List.sum_append,
                List.sum_cons, List.sum_nil, add_zero]
              rw [hδ]
              simp [g4]
            · rw [f7]
              simp only [List.map_append, List.map_cons, List.map_nil]
              rw [anyPrefixOver_snoc, hδ]
              have : ({ m0 with overlap := m0.overlap + 1 } : Match).is_too_far_away =
                  m0.is_too_far_away := rfl
              rw [this, g5, g4]
            · obtain ⟨b0, v0, bn, vn, hb0, hv0, hbn, hvn, ho1, ho2⟩ := g6
              exact ⟨b0, v0, bn, vn, hb0, hv0, hbn, hvn, by rw [f5]; exact ho1,
                by rw [f6]; exact ho2⟩

/-! ### Glue lemmas for the claim theorems -/

theorem pairVisits_mem (idx : List (Date × List Vort)) (bts : List Track)
    (bt : Track) (vm : Vort) (e : Event) (he : e ∈ pairVisits idx bts bt vm) :
    e.bt = bt ∧ e.vm = vm := by
  simp only [pairVisits, List.mem_filter, decide_eq_true_eq] at he
  have hk := he.2
  rw [Event.key, Prod.mk.injEq] at hk
  exact hk

theorem anyPrefixOver_iff (δs : List ℚ) :
    anyPrefixOver δs = true ↔
      ∃ i < δs.length, CUM_DIST_CUTOFF < ((δs.take (i + 1)).sum) := by
  simp [anyPrefixOver, List.any_eq_true, List.mem_range]

/-! ### The claims about the association engine -/

/-- C1: for every reference track and candidate that are jointly visited at
least once (which is what sharing a date means through the caller-supplied
temporal index), the engine's output holds exactly one Match record for
the pair, and its overlap equals the number of accumulation events — the
creation visit plus one per repeat visit. -/
theorem C1_overlap_counts_accumulation_events
    (d : Pos → Pos → ℚ) (idx : List (Date × List Vort)) (bts : List Track)
    (ms : Matches) (bt : Track) (vm : Vort)
    (h : matchTracks d idx bts = .ok ms)
    (hshare : 0 < jointVisits idx bts bt vm) :
    (ms.filter fun kv => kv.1 = (bt, vm)).length = 1 ∧
    (lookupMatch ms (bt, vm)).map Match.overlap = some (jointVisits idx bts bt vm) := by
  have hkey := matchTracks_key d idx bts ms h bt vm
  have hchar := keyFold_char d bt vm (pairVisits idx bts bt vm)
    (fun e he => pairVisits_mem idx bts bt vm e he) (lookupMatch ms (bt, vm)) hkey
  cases hlm : lookupMatch ms (bt, vm) with
  | none =>
    exfalso
    rw [hlm] at hchar
    have hnil : pairVisits idx bts bt vm = [] := hchar.1.mp rfl
    rw [jointVisits, hnil] at hshare
    simp at hshare
  | some m =>
    rw [hlm] at hchar
    obtain ⟨_, _, hov, _, _, _⟩ := hchar.2 m rfl
    refine ⟨?_, ?_⟩
    · have hnd := matchTracks_keys_nodup d idx bts ms h
      rw [filter_eq_singleton_of_nodup ms (bt, vm) m hnd hlm]
      rfl
    · simp only [Option.map_some', Option.map_some, Option.some.injEq]
      rw [hov]
      rfl

/-- C1 witness: the single-shared-date scenario, where the pair is jointly
visited once and the produced Match has overlap 1. -/
theorem C1_witness :
    (msW.filter fun kv => kv.1 = (btW, vmW)).length = 1 ∧
    (lookupMatch msW (btW, vmW)).map Match.overlap = some (jointVisits idxW [btW] btW vmW) := by
  have h : matchTracks distTaxi idxW [btW] = .ok msW := by
    norm_num [matchTracks, foldE, visitTrack, trackObs, visitDate, dateCands, lookupIdx,
      visitVort, lookupMatch, Match.init, lookupPos, lookupDatePos, accumulate, updateKey,
      distTaxi, btW, vmW, idxW, mW, msW, CUM_DIST_CUTOFF]
  have hshare : 0 < jointVisits idxW [btW] btW vmW := by
    norm_num [jointVisits, pairVisits, allEvents, trackEvents, trackObs, dateCands,
      lookupIdx, idxW, btW, Event.key, List.filter]
  exact C1_overlap_counts_accumulation_events distTaxi idxW [btW] msW btW vmW h hshare

/-- C3: on a repeat visit of a pair whose record is already flagged as
diverged, the engine still increments the overlap and adds the planar
distance to the cumulative distance, by exactly the same update it applies
to a non-diverged record; the flag never causes the accumulation to be
skipped. -/
theorem C3_diverged_pair_still_accumulates
    (d : Pos → Pos → ℚ) (bt : Track) (lon lat : ℚ) (dte : Date) (ms : Matches)
    (vm : Vort) (m : Match) (p : Pos)
    (hm : lookupMatch ms (bt, vm) = some m)
    (hdiv : m.is_too_far_away = true)
    (hp : lookupPos vm dte = some p) :
    visitVort d bt lon lat dte ms vm =
      .ok (updateKey ms (bt, vm)
        (accumulate (d p (lon, lat)) { m with overlap := m.overlap + 1 })) ∧
    (accumulate (d p (lon, lat)) { m with overlap := m.overlap + 1 }).overlap
      = m.overlap + 1 ∧
    (accumulate (d p (lon, lat)) { m with overlap := m.overlap + 1 }).cum_dist
      = m.cum_dist + d p (lon, lat) ∧
    (accumulate (d p (lon, lat)) { m with overlap := m.overlap + 1 }).is_too_far_away
      = true ∧
    (accumulate (d p (lon, lat)) { m with overlap := m.overlap + 1 }).overlap
      = (accumulate (d p (lon, lat))
          { m with is_too_far_away := false, overlap := m.overlap + 1 }).overlap ∧
    (accumulate (d p (lon, lat)) { m with overlap := m.overlap + 1 }).cum_dist
      = (accumulate (d p (lon, lat))
          { m with is_too_far_away := false, overlap := m.overlap + 1 }).cum_dist := by
  obtain ⟨_, _, f3, f4, _, _, f7⟩ :=
    accumulate_fields (d p (lon, lat)) { m with overlap := m.overlap + 1 }
  obtain ⟨_, _, g3, g4, _, _, _⟩ :=
    accumulate_fields (d p (lon, lat)) { m with is_too_far_away := false, overlap := m.overlap + 1 }
  refine ⟨?_, by simpa using f3, by simpa using f4, ?_, ?_, ?_⟩
  · simp only [visitVort, hm, hp]
  · rw [f7]
    simp [hdiv]
  · rw [f3, g3]
  · rw [f4, g4]

/-- C3 witness: a concrete diverged record keeps accumulating. -/
theorem C3_witness :
    visitVort distTaxi btW 0 0 0 msW vmW =
      .ok (updateKey msW (btW, vmW)
        (accumulate (distTaxi (200, 0) (0, 0)) { mW with overlap := mW.overlap + 1 })) ∧
    (accumulate (distTaxi (200, 0) (0, 0)) { mW with overlap := mW.overlap + 1 }).overlap = 2 ∧
    (accumulate (distTaxi (200, 0) (0, 0)) { mW with overlap := mW.overlap + 1 }).cum_dist = 400 ∧
    (accumulate (distTaxi (200, 0) (0, 0)) { mW with overlap := mW.overlap + 1 }).is_too_far_away
      = true := by
  have hm : lookupMatch msW (btW, vmW) = some mW := by norm_num [lookupMatch, msW]
  have hp : lookupPos vmW 0 = some (200, 0) := by norm_num [lookupPos, lookupDatePos, vmW]
  obtain ⟨h1, h2, h3, h4, _, _⟩ :=
    C3_diverged_pair_still_accumulates distTaxi btW 0 0 0 msW vmW mW (200, 0) hm rfl hp
  refine ⟨h1, ?_, ?_, h4⟩
  · rw [h2]
    norm_num [mW]
  · rw [h3]
    norm_num [mW, distTaxi]

/-- C4: a produced Match's diverged flag is set exactly when some prefix of
its visit-wise distance contributions pushed the cumulative distance
strictly above the cutoff of 100. -/
theorem C4_diverged_iff_cutoff_exceeded
    (d : Pos → Pos → ℚ) (idx : List (Date × List Vort)) (bts : List Track)
    (ms : Matches) (bt : Track) (vm : Vort) (m : Match)
    (h : matchTracks d idx bts = .ok ms)
    (hm : lookupMatch ms (bt, vm) = some m) :
    m.is_too_far_away = true ↔
      ∃ i < (visitDeltas d idx bts bt vm).length,
        CUM_DIST_CUTOFF < ((visitDeltas d idx bts bt vm).take (i + 1)).sum := by
  have hkey := matchTracks_key d idx bts ms h bt vm
  rw [hm] at hkey
  have hchar := keyFold_char d bt vm (pairVisits idx bts bt vm)
    (fun e he => pairVisits_mem idx bts bt vm e he) (some m) hkey
  obtain ⟨_, _, _, _, hflag, _⟩ := hchar.2 m rfl
  rw [hflag]
  exact anyPrefixOver_iff _

/-- C4 witness: the single-shared-date scenario at distance 200 — Match
created with overlap 1, cumulative distance 200, diverged flag set. -/
theorem C4_witness :
    lookupMatch msW (btW, vmW) = some mW ∧
    mW.is_too_far_away = true ∧ mW.overlap = 1 ∧ mW.cum_dist = 200 := by
  have h : matchTracks distTaxi idxW [btW] = .ok msW := by
    norm_num [matchTracks, foldE, visitTrack, trackObs, visitDate, dateCands, lookupIdx,
      visitVort, lookupMatch, Match.init, lookupPos, lookupDatePos, accumulate, updateKey,
      distTaxi, btW, vmW, idxW, mW, msW, CUM_DIST_CUTOFF]
  have hm : lookupMatch msW (btW, vmW) = some mW := by norm_num [lookupMatch, msW]
  have hdeltas : visitDeltas distTaxi idxW [btW] btW vmW = [200] := by
    norm_num [visitDeltas, pairVisits, allEvents, trackEvents, trackObs, dateCands,
      lookupIdx, idxW, btW, Event.key, List.filter, eventDelta, lookupPos, lookupDatePos,
      vmW, distTaxi]
  refine ⟨hm, ?_, rfl, rfl⟩
  exact (C4_diverged_iff_cutoff_exceeded distTaxi idxW [btW] msW btW vmW mW h hm).mpr
    ⟨0, by rw [hdeltas]; norm_num, by rw [hdeltas]; norm_num [CUM_DIST_CUTOFF]⟩

/-- C9: the overlap window is fixed at construction — overlap_start is the
maximum of the two first dates and overlap_end the minimum of the two last
dates — and any later engine step leaves every stored record's reference
track, candidate handle, overlap_start and overlap_end unchanged. -/
theorem C9_window_fixed_at_creation
    (bt : Track) (vt : Vort) (m0 : Match) (b0 v0 bn vn : Date)
    (hb0 : bt.dates.head? = some b0) (hv0 : vt.dates.head? = some v0)
    (hbn : bt.dates.getLast? = some bn) (hvn : vt.dates.getLast? = some vn)
    (hinit : Match.init bt vt = .ok m0)
    (d : Pos → Pos → ℚ) (ms ms' : Matches) (e : Event) (k : Track × Vort) (m : Match)
    (hstep : visitEvent d ms e = .ok ms') (hk : lookupMatch ms k = some m) :
    m0.overlap_start = max b0 v0 ∧ m0.overlap_end = min bn vn ∧
    m0.best_track = bt ∧ m0.vort_track = vt ∧
    (lookupMatch ms' k).map Match.best_track = some m.best_track ∧
    (lookupMatch ms' k).map Match.vort_track = some m.vort_track ∧
    (lookupMatch ms' k).map Match.overlap_start = some m.overlap_start ∧
    (lookupMatch ms' k).map Match.overlap_end = some m.overlap_end := by
  obtain ⟨b0', v0', bn', vn', hb0', hv0', hbn', hvn', hm0⟩ := Match.init_ok bt vt m0 hinit
  rw [hb0] at hb0'
  rw [hv0] at hv0'
  rw [hbn] at hbn'
  rw [hvn] at hvn'
  simp only [Option.some.injEq] at hb0' hv0' hbn' hvn'
  subst hb0' hv0' hbn' hvn'
  subst hm0
  obtain ⟨hkeyeq, hframe⟩ := visitEvent_key_effect d ms ms' e hstep
  refine ⟨rfl, rfl, rfl, rfl, ?_⟩
  by_cases hke : k = e.key
  · subst hke
    rw [hk] at hkeyeq
    cases hp : lookupPos e.vm e.date with
    | none =>
      exfalso
      simp only [keyStep, hp] at hkeyeq
      exact Except.noConfusion hkeyeq
    | some p =>
      simp only [keyStep, hp, Except.ok.injEq] at hkeyeq
      rw [← hkeyeq]
      obtain ⟨f1, f2, _, _, f5, f6, _⟩ :=
        accumulate_fields (d p (e.lon, e.lat)) { m with overlap := m.overlap + 1 }
      exact ⟨congrArg some f1, congrArg some f2, congrArg some f5, congrArg some f6⟩
  · rw [hframe k hke, hk]
    exact ⟨rfl, rfl, rfl, rfl⟩

/-- C9 witness: the concrete creation and one further step. -/
theorem C9_witness :
    mInit.overlap_start = max 0 0 ∧ mInit.overlap_end = min 0 0 ∧
    mInit.best_track = btW ∧ mInit.vort_track = vmW ∧
    (lookupMatch (updateKey msW (btW, vmW)
        (accumulate (distTaxi (200, 0) (0, 0)) { mW with overlap := mW.overlap + 1 }))
      (btW, vmW)).map Match.overlap_start = some mW.overlap_start := by
  have hinit : Match.init btW vmW = .ok mInit := by
    norm_num [Match.init, btW, vmW, mInit]
  have hk : lookupMatch msW (btW, vmW) = some mW := by norm_num [lookupMatch, msW]
  have hstep : visitEvent distTaxi msW
      { bt := btW, lon := 0, lat := 0, date := 0, vm := vmW } =
      .ok (updateKey msW (btW, vmW)
        (accumulate (distTaxi (200, 0) (0, 0)) { mW with overlap := mW.overlap + 1 })) := by
    have hp : lookupPos vmW 0 = some (200, 0) := by norm_num [lookupPos, lookupDatePos, vmW]
    exact (C3_diverged_pair_still_accumulates distTaxi btW 0 0 0 msW vmW mW (200, 0)
      hk rfl hp).1
  obtain ⟨w1, w2, w3, w4, _, _, w7, _⟩ :=
    C9_window_fixed_at_creation btW vmW mInit 0 0 0 0 rfl rfl rfl rfl hinit
      distTaxi msW _ { bt := btW, lon := 0, lat := 0, date := 0, vm := vmW }
      (btW, vmW) mW hstep hk
  exact ⟨w1, w2, w3, w4, w7⟩

/-- C10: every Match in the engine's output has overlap at least 1, so its
average distance is the cumulative distance divided by a nonzero count:
av_dist times overlap recovers cum_dist with no caller-side guard. -/
theorem C10_overlap_positive_av_dist_defined
    (d : Pos → Pos → ℚ) (idx : List (Date × List Vort)) (bts : List Track)
    (ms : Matches) (h : matchTracks d idx bts = .ok ms) :
    ∀ kv ∈ ms, 1 ≤ kv.2.overlap ∧ kv.2.av_dist * (kv.2.overlap : ℚ) = kv.2.cum_dist := by
  intro kv hmem
  have hnd := matchTracks_keys_nodup d idx bts ms h
  have hlm := lookupMatch_mem_of_nodup ms kv hnd hmem
  have hkey := matchTracks_key d idx bts ms h kv.1.1 kv.1.2
  rw [show ((kv.1.1, kv.1.2) : Track × Vort) = kv.1 from rfl, hlm] at hkey
  have hchar := keyFold_char d kv.1.1 kv.1.2 (pairVisits idx bts kv.1.1 kv.1.2)
    (fun e he => pairVisits_mem idx bts kv.1.1 kv.1.2 e he) (some kv.2) hkey
  obtain ⟨hiff, hprops⟩ := hchar
  obtain ⟨_, _, hov, _, _, _⟩ := hprops kv.2 rfl
  have hne : pairVisits idx bts kv.1.1 kv.1.2 ≠ [] := by
    intro hnil
    exact absurd (hiff.mpr hnil) (by simp)
  have hpos : 1 ≤ kv.2.overlap := by
    rw [hov]
    have := List.length_pos.mpr hne
    omega
  refine ⟨hpos, ?_⟩
  rw [Match.av_dist]
  exact div_mul_cancel₀ _ (Nat.cast_ne_zero.mpr (by omega))

/-- C10 witness: the concrete output's single record. -/
theorem C10_witness :
    1 ≤ mW.overlap ∧ mW.av_dist * (mW.overlap : ℚ) = mW.cum_dist := by
  have h : matchTracks distTaxi idxW [btW] = .ok msW := by
    norm_num [matchTracks, foldE, visitTrack, trackObs, visitDate, dateCands, lookupIdx,
      visitVort, lookupMatch, Match.init, lookupPos, lookupDatePos, accumulate, updateKey,
      distTaxi, btW, vmW, idxW, mW, msW, CUM_DIST_CUTOFF]
  exact C10_overlap_positive_av_dist_defined distTaxi idxW [btW] msW h
    ((btW, vmW), mW) (by simp [msW])

/-! ### The claim about input validation (C2) -/

/-- C2 counterexample: a reference track with zero observations does not
make the engine fail — the run completes and returns the empty mapping,
so no InvalidInput (nor any other) error is raised. -/
theorem C2_counterexample :
    matchTracks distTaxi idxW [btEmpty] = .ok [] := by
  norm_num [matchTracks, foldE, visitTrack, trackObs, btEmpty]

/-- C2 amended: the engine performs no input validation and has no
InvalidInput failure.  Reference tracks with zero observations are
silently skipped, so a run over them completes with an empty match
mapping; a zero-observation candidate listed in the temporal index makes
`Match.__init__`'s date indexing raise a plain IndexError instead. -/
theorem C2_amended_no_invalid_input_error
    (d : Pos → Pos → ℚ) (idx : List (Date × List Vort)) (bts : List Track)
    (hempty : ∀ bt ∈ bts, bt.dates = []) :
    matchTracks d idx bts = .ok [] ∧
    matchTracks distTaxi [(0, [vmEmpty])] [btW] = .error .indexError := by
  constructor
  · have hgen : ∀ bts2 (ms : Matches), (∀ bt ∈ bts2, bt.dates = []) →
        foldE (visitTrack d idx) ms bts2 = .ok ms := by
      intro bts2
      induction bts2 with
      | nil => intro ms _; rfl
      | cons bt bts2 ih =>
        intro ms hall
        have hobs : trackObs bt = [] := by
          rw [trackObs, hall bt (by simp), List.zip_nil_right, List.zip_nil_right]
        simp only [foldE, visitTrack, hobs]
        exact ih ms (fun bt2 h2 => hall bt2 (by simp [h2]))
    exact hgen bts [] hempty
  · norm_num [matchTracks, foldE, visitTrack, trackObs, visitDate, dateCands, lookupIdx,
      visitVort, lookupMatch, Match.init, btW, vmEmpty]

/-- C2 witness: the amended behaviour at a concrete empty reference. -/
theorem C2_witness :
    matchTracks distTaxi [] [btEmpty] = .ok [] ∧
    matchTracks distTaxi [(0, [vmEmpty])] [btW] = .error .indexError := by
  exact C2_amended_no_invalid_input_error distTaxi [] [btEmpty]
    (fun bt hbt => by simp only [List.mem_singleton] at hbt; rw [hbt]; rfl)

/-! ### The claims about the aggregator (C5) -/

theorem foldE_flatten {α σ : Type} (g : σ → α → Except Err σ) (ls : List (List α)) (s : σ) :
    foldE (fun s2 l => foldE g s2 l) s ls = foldE g s ls.flatten := by
  induction ls generalizing s with
  | nil => rfl
  | cons l ls ih =>
    rw [List.flatten_cons, foldE_append]
    simp only [foldE]
    cases foldE g s l with
    | error er => simp [Except.bind]
    | ok s1 => simpa [Except.bind] using ih s1

theorem dictInsertTrack_fresh (best_tracks : List Track) :
    ∀ acc : Combined, best_tracks.Nodup →
    (∀ bt ∈ best_tracks, bt ∉ acc.map Prod.fst) →
    best_tracks.foldl (fun cm bt => dictInsertTrack cm bt []) acc =
      acc ++ best_tracks.map (fun bt => (bt, [])) := by
  induction best_tracks with
  | nil => intro acc _ _; simp
  | cons bt bts ih =>
    intro acc hnd hfresh
    rw [List.foldl_cons]
    have hins : dictInsertTrack acc bt [] = acc ++ [(bt, [])] := by
      rw [dictInsertTrack, if_neg]
      simp only [List.any_eq_true, decide_eq_true_eq, not_exists, not_and]
      intro p hp hpeq
      exact hfresh bt (by simp) (hpeq ▸ List.mem_map.mpr ⟨p, hp, rfl⟩)
    rw [hins]
    rw [List.nodup_cons] at hnd
    rw [ih (acc ++ [(bt, [])]) hnd.2 ?hfresh2]
    · simp
    case hfresh2 =>
      intro bt2 hbt2
      simp only [List.map_append, List.mem_append, List.map_cons, List.map_nil,
        List.mem_singleton, not_or]
      exact ⟨hfresh bt2 (by simp [hbt2]), fun hc => hnd.1 (hc ▸ hbt2)⟩

theorem appendUnder_map (best_tracks : List Track) (f : Track → List Match) (m : Match)
    (hmem : m.best_track ∈ best_tracks) :
    appendUnder (best_tracks.map fun bt => (bt, f bt)) m.best_track m =
      .ok (best_tracks.map fun bt =>
        (bt, f bt ++ if bt = m.best_track then [m] else [])) := by
  rw [appendUnder, if_pos]
  · rw [List.map_map]
    congr 1
    apply List.map_congr_left
    intro bt _
    by_cases hbt : bt = m.best_track <;> simp [hbt]
  · simp only [List.any_eq_true, decide_eq_true_eq]
    exact ⟨(m.best_track, f m.best_track), List.mem_map.mpr ⟨m.best_track, hmem, rfl⟩, rfl⟩

theorem foldMatches_shape (best_tracks : List Track) :
    ∀ (flat : List Match) (f : Track → List Match),
    (∀ m ∈ flat, m.best_track ∈ best_tracks) →
    foldE (fun cm m => appendUnder cm m.best_track m)
        (best_tracks.map fun bt => (bt, f bt)) flat =
      .ok (best_tracks.map fun bt =>
        (bt, f bt ++ flat.filter (fun m => m.best_track = bt))) := by
  intro flat
  induction flat with
  | nil =>
    intro f _
    simp [foldE]
  | cons m flat ih =>
    intro f hcov
    simp only [foldE, appendUnder_map best_tracks f m (hcov m (by simp))]
    rw [ih (fun bt => f bt ++ if bt = m.best_track then [m] else [])
      (fun m2 hm2 => hcov m2 (by simp [hm2]))]
    congr 1
    apply List.map_congr_left
    intro bt _
    by_cases hbt : m.best_track = bt
    · rw [List.filter_cons_of_pos (by simp [hbt]), if_pos hbt.symm]
      simp
    · rw [List.filter_cons_of_neg (by simp [hbt]), if_neg (fun hc => hbt hc.symm)]
      simp

/-- C5 counterexample: `combined_match` applied directly to an
association-engine output (the OrderedDict itself) raises AttributeError
at the first match — iterating the dict yields (reference, candidate) key
tuples, and a tuple has no `best_track` attribute — instead of returning
any mapping. -/
theorem C5_counterexample :
    combined_match_on_outputs [btW] [msW] = .error .attributeError := by rfl

/-- C5 amended: given, for each engine run, the list of Match records of
its output (its dict values), the aggregator returns a mapping whose keys
are exactly the supplied reference tracks in order — an empty list for a
track with no matches — and whose value at each track is exactly the
sublist of input matches whose reference field equals it, in input order:
no match duplicated or lost. -/
theorem C5_amended_partition
    (best_tracks : List Track) (all_matches : List (List Match))
    (hnd : best_tracks.Nodup)
    (hcov : ∀ msl ∈ all_matches, ∀ m ∈ msl, m.best_track ∈ best_tracks) :
    combined_match best_tracks all_matches =
      .ok (best_tracks.map fun bt =>
        (bt, all_matches.flatten.filter fun m => m.best_track = bt)) := by
  rw [combined_match]
  have h0 : best_tracks.foldl (fun cm bt => dictInsertTrack cm bt []) [] =
      best_tracks.map (fun bt => (bt, [])) := by
    simpa using dictInsertTrack_fresh best_tracks [] hnd (by simp)
  rw [h0, foldE_flatten]
  have hcov2 : ∀ m ∈ all_matches.flatten, m.best_track ∈ best_tracks := by
    intro m hm
    rw [List.mem_flatten] at hm
    obtain ⟨l, hl, hml⟩ := hm
    exact hcov l hl m hml
  simpa using foldMatches_shape best_tracks all_matches.flatten (fun _ => []) hcov2

/-- C5 witness: the amended grouping at a concrete input. -/
theorem C5_witness :
    combined_match [btW] [[mW]] = .ok [(btW, [mW])] := by
  have h := C5_amended_partition [btW] [[mW]] (by simp)
    (by
      intro msl hmsl m hm
      simp only [List.mem_singleton] at hmsl
      subst hmsl
      simp only [List.mem_singleton] at hm
      subst hm
      simp [mW])
  simpa [mW] using h

/-! ### The claims about the parameter search (C6, C7, C8) -/

theorem optStep_eq_of_no_fire (s : OptState) (g : GridEval)
    (h1 : ¬(6 ≤ g.overlap ∧ g.smoothed_new_d < s.min_d))
    (h2 : ¬(6 ≤ g.overlap ∧ g.filtered_new_d < s.min_d)) :
    optStep s g = s := by
  simp only [optStep]
  rw [if_neg h1, if_neg h2]

theorem optStep_fire_some (s : OptState) (g : GridEval)
    (h : 6 ≤ g.overlap ∧ (g.smoothed_new_d < s.min_d ∨ g.filtered_new_d < s.min_d)) :
    (optStep s g).optimum_param ≠ none := by
  simp only [optStep]
  by_cases h1 : 6 ≤ g.overlap ∧ g.smoothed_new_d < s.min_d
  · rw [if_pos h1]
    split_ifs <;> simp
  · rw [if_neg h1]
    have h2 : 6 ≤ g.overlap ∧ g.filtered_new_d < s.min_d := by
      rcases h.2 with hs | hf
      · exact absurd ⟨h.1, hs⟩ h1
      · exact ⟨h.1, hf⟩
    rw [if_pos h2]
    simp

theorem optStep_optimum_none (s : OptState) (g : GridEval)
    (h : (optStep s g).optimum_param = none) : s.optimum_param = none := by
  simp only [optStep] at h
  split_ifs at h <;> first | exact h | (exfalso; simp at h)

theorem optStep_none_eq (s : OptState) (g : GridEval)
    (h : (optStep s g).optimum_param = none) : optStep s g = s := by
  simp only [optStep] at h ⊢
  split_ifs at h ⊢ <;> first | rfl | (exfalso; simp at h)

theorem runOpt_none_start : ∀ (grid : List GridEval) (s : OptState),
    (grid.foldl optStep s).optimum_param = none → s.optimum_param = none := by
  intro grid
  induction grid with
  | nil => intro s h; exact h
  | cons g grid ih =>
    intro s h
    rw [List.foldl_cons] at h
    exact optStep_optimum_none s g (ih (optStep s g) h)

theorem runOpt_none_iff : ∀ (grid : List GridEval) (s : OptState),
    (grid.foldl optStep s).optimum_param = none ↔
      s.optimum_param = none ∧
      ∀ g ∈ grid,
        ¬(6 ≤ g.overlap ∧ (g.smoothed_new_d < s.min_d ∨ g.filtered_new_d < s.min_d)) := by
  intro grid
  induction grid with
  | nil => intro s; simp
  | cons g grid ih =>
    intro s
    rw [List.foldl_cons]
    by_cases hf : 6 ≤ g.overlap ∧ (g.smoothed_new_d < s.min_d ∨ g.filtered_new_d < s.min_d)
    · constructor
      · intro hres
        exact absurd (runOpt_none_start grid (optStep s g) hres)
          (optStep_fire_some s g hf)
      · rintro ⟨_, hall⟩
        exact absurd hf (hall g (by simp))
    · have hstep : optStep s g = s :=
        optStep_eq_of_no_fire s g (fun hc => hf ⟨hc.1, Or.inl hc.2⟩)
          (fun hc => hf ⟨hc.1, Or.inr hc.2⟩)
      rw [hstep, ih s]
      constructor
      · rintro ⟨h1, h2⟩
        refine ⟨h1, fun g2 hg2 => ?_⟩
        rcases List.mem_cons.mp hg2 with hg2 | hg2
        · exact hg2 ▸ hf
        · exact h2 g2 hg2
      · rintro ⟨h1, h2⟩
        exact ⟨h1, fun g2 hg2 => h2 g2 (by simp [hg2])⟩

theorem runOpt_none_fixed : ∀ (grid : List GridEval) (s : OptState),
    (grid.foldl optStep s).optimum_param = none → grid.foldl optStep s = s := by
  intro grid
  induction grid with
  | nil => intro s _; rfl
  | cons g grid ih =>
    intro s h
    rw [List.foldl_cons] at h ⊢
    have h0 := runOpt_none_start grid (optStep s g) h
    have he := optStep_none_eq s g h0
    rw [he] at h ⊢
    exact ih s h

theorem runOpt_optimum_from_grid : ∀ (grid : List GridEval) (s : OptState)
    (q r : ℚ) (mo : Mode),
    (grid.foldl optStep s).optimum_param = some (q, r, mo) →
    s.optimum_param = some (q, r, mo) ∨
      ∃ g ∈ grid, g.q_param = q ∧ g.r_param = r ∧ 6 ≤ g.overlap := by
  intro grid
  induction grid with
  | nil => intro s q r mo h; exact Or.inl h
  | cons g grid ih =>
    intro s q r mo h
    rw [List.foldl_cons] at h
    rcases ih (optStep s g) q r mo h with hcase | ⟨g2, hg2, hq, hr, hov⟩
    · revert hcase
      simp only [optStep]
      split_ifs with h1 h2 h2 <;> intro hcase
      · simp only [Option.some.injEq, Prod.mk.injEq] at hcase
        exact Or.inr ⟨g, by simp, hcase.1, hcase.2.1, h1.1⟩
      · simp only [Option.some.injEq, Prod.mk.injEq] at hcase
        exact Or.inr ⟨g, by simp, hcase.1, hcase.2.1, h1.1⟩
      · simp only [Option.some.injEq, Prod.mk.injEq] at hcase
        exact Or.inr ⟨g, by simp, hcase.1, hcase.2.1, h2.1⟩
      · exact Or.inl hcase
    · exact Or.inr ⟨g2, by simp [hg2], hq, hr, hov⟩

theorem runOpt_all_low_overlap : ∀ (grid : List GridEval) (s : OptState),
    (∀ g ∈ grid, g.overlap < 6) → grid.foldl optStep s = s := by
  intro grid
  induction grid with
  | nil => intro s _; rfl
  | cons g grid ih =>
    intro s hall
    rw [List.foldl_cons]
    have hg := hall g (by simp)
    have hstep : optStep s g = s :=
      optStep_eq_of_no_fire s g (fun hc => by omega) (fun hc => by omega)
    rw [hstep]
    exact ih s (fun g2 hg2 => hall g2 (by simp [hg2]))

/-- C6 counterexample: `_optimize` ends without a `return` statement, so
at a concrete input whose grid contains an improving point the computed
optimum triple exists, yet the function's value is None — it does not
return the optimum together with the ratio. -/
theorem C6_counterexample :
    optimizeReturn 10 [gW] = none ∧
    (runOptimize 10 [gW]).optimum_param = some (1 / 1000, 1 / 10, Mode.smoothed) ∧
    optimizeReturn 10 [gW] ≠
      some ((1 / 1000, 1 / 10, Mode.smoothed), optimizeRatio 10 [gW]) := by
  refine ⟨rfl, ?_, by simp [optimizeReturn]⟩
  norm_num [runOptimize, optStep, gW]

/-- C6 amended: `_optimize` computes the optimum triple in its local
`optimum_param` — which stays none exactly when no gate-passing grid
point improves on the baseline — and prints the best-to-baseline distance
ratio, but returns None rather than these results. -/
theorem C6_amended_optimum_computed_not_returned
    (baseline_dist : ℚ) (grid : List GridEval) :
    optimizeReturn baseline_dist grid = none ∧
    ((runOptimize baseline_dist grid).optimum_param = none ↔
      ∀ g ∈ grid, 6 ≤ g.overlap →
        baseline_dist ≤ g.smoothed_new_d ∧ baseline_dist ≤ g.filtered_new_d) ∧
    optimizeRatio baseline_dist grid =
      (runOptimize baseline_dist grid).min_d / baseline_dist := by
  refine ⟨rfl, ?_, rfl⟩
  rw [runOptimize, runOpt_none_iff]
  simp only [true_and]
  constructor
  · intro hall g hg hov
    have hng := hall g hg
    constructor
    · by_contra hlt
      exact hng ⟨hov, Or.inl (not_le.mp hlt)⟩
    · by_contra hlt
      exact hng ⟨hov, Or.inr (not_le.mp hlt)⟩
  · rintro hall g hg ⟨hov, hlt⟩
    obtain ⟨hs, hf⟩ := hall g hg hov
    rcases hlt with hlt | hlt
    · exact absurd hlt (not_lt.mpr hs)
    · exact absurd hlt (not_lt.mpr hf)

/-- C7: a (q, r, mode) triple is only ever adopted at a grid point whose
recomputed overlap is at least 6, and when no grid point reaches overlap 6
the search ends with no optimum and the running minimum still equal to the
baseline. -/
theorem C7_min_overlap_gate
    (baseline_dist : ℚ) (grid : List GridEval) :
    (∀ q r mo, (runOptimize baseline_dist grid).optimum_param = some (q, r, mo) →
      ∃ g ∈ grid, g.q_param = q ∧ g.r_param = r ∧ 6 ≤ g.overlap) ∧
    ((∀ g ∈ grid, g.overlap < 6) →
      runOptimize baseline_dist grid = { min_d := baseline_dist, optimum_param := none }) := by
  constructor
  · intro q r mo h
    rcases runOpt_optimum_from_grid grid _ q r mo h with hs | hg
    · exact absurd hs (by simp)
    · exact hg
  · intro hall
    exact runOpt_all_low_overlap grid _ hall

/-- C7 witness: a grid whose only point has overlap 5 leaves the state at
the baseline with no optimum. -/
theorem C7_witness :
    runOptimize 10 [gLow] = { min_d := 10, optimum_param := none } ∧
    runOptimize 10 [] = { min_d := 10, optimum_param := none } := by
  refine ⟨?_, ?_⟩
  · exact (C7_min_overlap_gate 10 [gLow]).2
      (fun g hg => by
        simp only [List.mem_singleton] at hg
        rw [hg]
        norm_num [gLow])
  · exact (C7_min_overlap_gate 10 []).2 (fun g hg => by simp at hg)

/-- C8: each grid-loop body is the smoothed check followed by the filtered
check, each an independent strict-improvement test against the running
minimum; in particular when the smoothed estimate improves the minimum and
the filtered estimate beats the old minimum but not the new one, the
recorded optimum stays the smoothed triple. -/
theorem C8_smoothed_then_filtered_order
    (s : OptState) (g : GridEval) :
    optStep s g = checkFiltered g (checkSmoothed g s) ∧
    (6 ≤ g.overlap → g.smoothed_new_d < s.min_d → g.smoothed_new_d ≤ g.filtered_new_d →
      g.filtered_new_d < s.min_d →
      optStep s g =
        { min_d := g.smoothed_new_d,
          optimum_param := some (g.q_param, g.r_param, Mode.smoothed) }) := by
  constructor
  · rfl
  · intro hov hsm hsf _
    have hs1 : checkSmoothed g s =
        { min_d := g.smoothed_new_d,
          optimum_param := some (g.q_param, g.r_param, Mode.smoothed) } := by
      rw [checkSmoothed, if_pos ⟨hov, hsm⟩]
    calc optStep s g = checkFiltered g (checkSmoothed g s) := rfl
      _ = { min_d := g.smoothed_new_d,
            optimum_param := some (g.q_param, g.r_param, Mode.smoothed) } := by
        rw [hs1, checkFiltered,
          if_neg (fun hc => absurd hc.2 (not_lt.mpr hsf))]

/-- C8 witness: the decomposition and the non-overwrite at a concrete
state and grid point (smoothed 1, filtered 2, old minimum 10). -/
theorem C8_witness :
    optStep { min_d := 10, optimum_param := none } gW =
      checkFiltered gW (checkSmoothed gW { min_d := 10, optimum_param := none }) ∧
    optStep { min_d := 10, optimum_param := none } gW =
      { min_d := gW.smoothed_new_d,
        optimum_param := some (gW.q_param, gW.r_param, Mode.smoothed) } := by
  obtain ⟨h1, h2⟩ := C8_smoothed_then_filtered_order { min_d := 10, optimum_param := none } gW
  exact ⟨h1, h2 (by norm_num [gW]) (by norm_num [gW]) (by norm_num [gW]) (by norm_num [gW])⟩

end Stormtracks
